import Mathlib

/-!
Shallow embedding of the DreamMaker object-tree parser.

This file embeds `src/dreammaker/parser.rs` — a hand-written recursive-descent
parser that turns a token stream into an object tree plus expression ASTs —
and proves properties of the embedded definitions.

Structure:
* data model: punctuation, tokens, the expression AST, the operator table;
* the token source (single pushback buffer, end-of-file sentinel, expected
  trail) and the tri-state backtracking protocol;
* the path stack and its flattening iteration;
* the tree grammar, expression grammar and group skipper, with recursion
  made total by an explicit fuel parameter (the group-skipper loop is
  defined by well-founded recursion on the remaining-source measure);
* theorems about those definitions.

The recursion in the grammar consumes one unit of fuel per call, so fuel
bounds only call depth; concrete runs in the theorems use a small literal.
-/

set_option maxHeartbeats 1000000

namespace DM

/-- Modelled from the spec: the punctuation symbols consumed by the parser
(the `Punctuation` enum lives in the lexer, which is outside `src/`); the
variant set is exactly the set referenced by `parser.rs`. -/
inductive Punctuation where
  | Pow | Mul | Slash | Mod | Add | Sub
  | Less | Greater | LessEq | GreaterEq
  | LShift | RShift | Eq | NotEq | LessGreater
  | BitAnd | BitXor | BitOr | And | Or
  | Not | BitNot
  | Assign | AddAssign | SubAssign | MulAssign | DivAssign
  | BitAndAssign | BitOrAssign | BitXorAssign | LShiftAssign | RShiftAssign
  | Semicolon | Comma | Dot | Colon
  | LBrace | RBrace | LParen | RParen | LBracket | RBracket
  deriving DecidableEq, BEq

/-- Modelled from the spec: tokens as supplied by the external lexer — a
tagged variant over identifier, string literal, resource literal, integer
literal, float literal, punctuation and end-of-file. -/
inductive Token where
  | Ident (name : String) (ws : Bool)
  | String (val : String)
  | Resource (val : String)
  | Int (val : Int)
  | Float (val : Float)
  | Punct (p : Punctuation)
  | Eof

/-- Structural equality on tokens, mirroring the derived `PartialEq` the
Rust parser compares tokens with. -/
def beqToken : Token → Token → Bool
  | Token.Ident a wa, Token.Ident b wb => a == b && wa == wb
  | Token.String a, Token.String b => a == b
  | Token.Resource a, Token.Resource b => a == b
  | Token.Int a, Token.Int b => a == b
  | Token.Float a, Token.Float b => a == b
  | Token.Punct a, Token.Punct b => a == b
  | Token.Eof, Token.Eof => true
  | _, _ => false

instance : BEq Token := ⟨beqToken⟩

/-- Modelled from the spec: a token plus its source location (locations are
abstracted to naturals; the parser only stores and reports them). -/
structure LocatedToken where
  location : Nat
  token : Token

/-- Modelled from the spec: a structured parse error carrying a source
location and a human-readable message. -/
structure DMError where
  location : Nat
  message : String
  deriving DecidableEq

/-- Modelled from the spec: a printable symbol for each punctuation token,
standing in for the lexer's `Display` implementation (used only to build
the "expected" descriptions). -/
def punctSym : Punctuation → String
  | Punctuation.Pow => "**"
  | Punctuation.Mul => "*"
  | Punctuation.Slash => "/"
  | Punctuation.Mod => "%"
  | Punctuation.Add => "+"
  | Punctuation.Sub => "-"
  | Punctuation.Less => "<"
  | Punctuation.Greater => ">"
  | Punctuation.LessEq => "<="
  | Punctuation.GreaterEq => ">="
  | Punctuation.LShift => "<<"
  | Punctuation.RShift => ">>"
  | Punctuation.Eq => "=="
  | Punctuation.NotEq => "!="
  | Punctuation.LessGreater => "<>"
  | Punctuation.BitAnd => "&"
  | Punctuation.BitXor => "^"
  | Punctuation.BitOr => "|"
  | Punctuation.And => "&&"
  | Punctuation.Or => "||"
  | Punctuation.Not => "!"
  | Punctuation.BitNot => "~"
  | Punctuation.Assign => "="
  | Punctuation.AddAssign => "+="
  | Punctuation.SubAssign => "-="
  | Punctuation.MulAssign => "*="
  | Punctuation.DivAssign => "/="
  | Punctuation.BitAndAssign => "&="
  | Punctuation.BitOrAssign => "|="
  | Punctuation.BitXorAssign => "^="
  | Punctuation.LShiftAssign => "<<="
  | Punctuation.RShiftAssign => ">>="
  | Punctuation.Semicolon => ";"
  | Punctuation.Comma => ","
  | Punctuation.Dot => "."
  | Punctuation.Colon => ":"
  | Punctuation.LBrace => "\x7b"
  | Punctuation.RBrace => "\x7d"
  | Punctuation.LParen => "("
  | Punctuation.RParen => ")"
  | Punctuation.LBracket => "["
  | Punctuation.RBracket => "]"

/-- Modelled from the spec: rendering of a token for the `Display` format
(`format!("\x7b\x7d", tok)`), which the Rust parser takes from the lexer. -/
def fmtDisplayToken : Token → String
  | Token.Ident i _ => i
  | Token.String s => s
  | Token.Resource s => s
  | Token.Int v => toString v
  | Token.Float _ => "float"
  | Token.Punct p => punctSym p
  | Token.Eof => "EOF"

/-- Modelled from the spec: rendering of a token for the `Debug` format
(`format!("\x7b:?\x7d", tok)`), which the Rust parser takes from the lexer. -/
def fmtDebugToken : Token → String
  | Token.Ident i _ => "Ident(" ++ i ++ ")"
  | Token.String s => "String(" ++ s ++ ")"
  | Token.Resource s => "Resource(" ++ s ++ ")"
  | Token.Int v => "Int(" ++ toString v ++ ")"
  | Token.Float _ => "Float"
  | Token.Punct p => "Punct(" ++ punctSym p ++ ")"
  | Token.Eof => "Eof"

/-- Modelled from the spec: unary prefix operator tags of the AST. -/
inductive UnaryOp where
  | Neg | Not | BitNot

/-- Modelled from the spec: binary operator tags of the AST; the variant
set is exactly the one referenced by the parser's operator table. -/
inductive BinaryOp where
  | Pow | Mul | Div | Mod | Add | Sub
  | Less | Greater | LessEq | GreaterEq
  | LShift | RShift | Eq | NotEq
  | BitAnd | BitXor | BitOr | And | Or

/-- Modelled from the spec: assignment operator tags of the AST. -/
inductive AssignOp where
  | Assign | AddAssign | SubAssign | MulAssign | DivAssign
  | BitAndAssign | BitOrAssign | BitXorAssign | LShiftAssign | RShiftAssign

/-- Modelled from the spec: separator kinds of a prefab path (slash, dot,
colon). -/
inductive PathOp where
  | Slash | Dot | Colon

mutual
/-- Modelled from the spec: the expression AST — a base term with unary
prefixes and postfix follows, or a binary / assignment node. -/
inductive Expression where
  | Base (unary : List UnaryOp) (term : Term) (follow : List Follow)
  | BinaryOp (op : BinaryOp) (lhs : Expression) (rhs : Expression)
  | AssignOp (op : AssignOp) (lhs : Expression) (rhs : Expression)

/-- Modelled from the spec: terms of the expression AST. -/
inductive Term where
  | New (type_ : NewType) (args : Option (List Expression))
  | List (entries : List (Expression × Option Expression))
  | Prefab (pf : Prefab)
  | Call (name : String) (args : List Expression)
  | Ident (name : String)
  | String (val : String)
  | Resource (val : String)
  | Int (val : Int)
  | Float (val : Float)
  | Expr (e : Expression)

/-- Modelled from the spec: postfix follow operations chained onto a base
term. -/
inductive Follow where
  | Field (name : String)
  | Call (name : String) (args : List Expression)
  | Index (e : Expression)
  | Cast (name : String)

/-- Modelled from the spec: the constructed type of a `new` term. -/
inductive NewType where
  | Implicit
  | Ident (i : String)
  | Prefab (pf : Prefab)

/-- Modelled from the spec: a type-path literal — ordered
(separator-kind, segment) pairs plus insertion-ordered variable
overrides. -/
inductive Prefab where
  | mk (path : List (PathOp × String)) (vars : List (String × Expression))
end

/-- Modelled from the `linked_hash_map` crate semantics: inserting an
existing key updates its value in place keeping its position; a new key is
appended. -/
def lhmInsert (key : String) (val : Expression) :
    List (String × Expression) → List (String × Expression)
  | [] => [(key, val)]
  | (k, v) :: rest =>
      if k == key then (k, val) :: rest else (k, v) :: lhmInsert key val rest

-- ----------------------------------------------------------------------------
-- Operator precedence table

/-- The `Op` enum of the parser: a binary or an assignment operation. -/
inductive Op where
  | BinaryOp (op : BinaryOp)
  | AssignOp (op : AssignOp)

/-- `Op::build`: assemble a binary or assignment AST node. -/
def Op.build : Op → Expression → Expression → Expression
  | Op.BinaryOp op, lhs, rhs => Expression.BinaryOp op lhs rhs
  | Op.AssignOp op, lhs, rhs => Expression.AssignOp op lhs rhs

/-- One entry of the operator table: strength (precedence rank),
right-associativity flag, the punctuation token and the operation. -/
structure OpInfo where
  strength : Nat
  right_binding : Bool
  token : Punctuation
  oper : Op

/-- The `BINARY_OPS` operator table, in source order. -/
def BINARY_OPS : List OpInfo := [
  ⟨11, false, Punctuation.Pow, Op.BinaryOp BinaryOp.Pow⟩,
  ⟨10, false, Punctuation.Mul, Op.BinaryOp BinaryOp.Mul⟩,
  ⟨10, false, Punctuation.Slash, Op.BinaryOp BinaryOp.Div⟩,
  ⟨10, false, Punctuation.Mod, Op.BinaryOp BinaryOp.Mod⟩,
  ⟨9, false, Punctuation.Add, Op.BinaryOp BinaryOp.Add⟩,
  ⟨9, false, Punctuation.Sub, Op.BinaryOp BinaryOp.Sub⟩,
  ⟨8, false, Punctuation.Less, Op.BinaryOp BinaryOp.Less⟩,
  ⟨8, false, Punctuation.Greater, Op.BinaryOp BinaryOp.Greater⟩,
  ⟨8, false, Punctuation.LessEq, Op.BinaryOp BinaryOp.LessEq⟩,
  ⟨8, false, Punctuation.GreaterEq, Op.BinaryOp BinaryOp.GreaterEq⟩,
  ⟨7, false, Punctuation.LShift, Op.BinaryOp BinaryOp.LShift⟩,
  ⟨7, false, Punctuation.RShift, Op.BinaryOp BinaryOp.RShift⟩,
  ⟨6, false, Punctuation.Eq, Op.BinaryOp BinaryOp.Eq⟩,
  ⟨6, false, Punctuation.NotEq, Op.BinaryOp BinaryOp.NotEq⟩,
  ⟨6, false, Punctuation.LessGreater, Op.BinaryOp BinaryOp.NotEq⟩,
  ⟨5, false, Punctuation.BitAnd, Op.BinaryOp BinaryOp.BitAnd⟩,
  ⟨5, false, Punctuation.BitXor, Op.BinaryOp BinaryOp.BitXor⟩,
  ⟨5, false, Punctuation.BitOr, Op.BinaryOp BinaryOp.BitOr⟩,
  ⟨4, false, Punctuation.And, Op.BinaryOp BinaryOp.And⟩,
  ⟨3, false, Punctuation.Or, Op.BinaryOp BinaryOp.Or⟩,
  ⟨0, true, Punctuation.Assign, Op.AssignOp AssignOp.Assign⟩,
  ⟨0, true, Punctuation.AddAssign, Op.AssignOp AssignOp.AddAssign⟩,
  ⟨0, true, Punctuation.SubAssign, Op.AssignOp AssignOp.SubAssign⟩,
  ⟨0, true, Punctuation.MulAssign, Op.AssignOp AssignOp.MulAssign⟩,
  ⟨0, true, Punctuation.DivAssign, Op.AssignOp AssignOp.DivAssign⟩,
  ⟨0, true, Punctuation.BitAndAssign, Op.AssignOp AssignOp.BitAndAssign⟩,
  ⟨0, true, Punctuation.BitOrAssign, Op.AssignOp AssignOp.BitOrAssign⟩,
  ⟨0, true, Punctuation.BitXorAssign, Op.AssignOp AssignOp.BitXorAssign⟩,
  ⟨0, true, Punctuation.LShiftAssign, Op.AssignOp AssignOp.LShiftAssign⟩,
  ⟨0, true, Punctuation.RShiftAssign, Op.AssignOp AssignOp.RShiftAssign⟩]

-- ----------------------------------------------------------------------------
-- Path stack

/-- `PathStack`: a chain of path-segment slices representing the nesting of
declaration blocks (borrowed references become plain values here). -/
inductive PathStack where
  | mk (parent : Option PathStack) (parts : List String)

/-- The `parent` field of a path stack node. -/
def PathStack.parent : PathStack → Option PathStack
  | PathStack.mk p _ => p

/-- The frame-collection phase of `PathStack::iter`: walk from the current
node outward, pushing each node's parts — innermost frame first, exactly
the `rest` vector the Rust iterator builds. -/
def PathStack.collect : PathStack → List (List String)
  | PathStack.mk none parts => [parts]
  | PathStack.mk (some p) parts => parts :: PathStack.collect p

/-- `PathStack::iter` observed as the list of segment names it yields:
`PathStackIter` pops frames from the outermost end of `rest` and emits
each frame left to right, i.e. the reversed frame list flattened. -/
def PathStack.iter (ps : PathStack) : List String :=
  (PathStack.collect ps).reverse.flatten

-- ----------------------------------------------------------------------------
-- Object tree registrations

/-- Modelled from the spec: the object tree is write-only during parsing;
we record the sequence of registration calls the parser makes
(`add_entry`, `add_var`, `add_proc`), each with the location and the
materialized path. -/
inductive TreeOp where
  | entry (loc : Nat) (path : List String)
  | var (loc : Nat) (path : List String) (init : Expression)
  | proc (loc : Nat) (path : List String)

/-- The path of a registration call. -/
def TreeOp.path : TreeOp → List String
  | TreeOp.entry _ p => p
  | TreeOp.var _ p _ => p
  | TreeOp.proc _ p => p

-- ----------------------------------------------------------------------------
-- Parser state and the backtracking protocol

/-- The parser state: the remaining fallible token input, the end-of-file
flag, the single-token pushback buffer, the current location, the
"expected" trail, the object-tree registration log and the warning log
(standing in for `println!`). -/
structure PState where
  input : List (Except DMError LocatedToken)
  eof : Bool
  next : Option Token
  location : Nat
  expected : List String
  tree : List TreeOp
  warnings : List (List String × PathStack)

/-- Fatal outcomes: a parse error (`DMError`), a programmer-contract
violation (Rust panic), or fuel exhaustion (an artifact of the embedding,
never a behavior of the code). -/
inductive Fatal where
  | err (e : DMError)
  | panic (msg : String)
  | oof

/-- The parsing monad: state passing over `PState` with fatal
short-circuiting. A grammar rule returning `M (Option T)` mirrors the Rust
`Status<T> = Result<Option<T>, DMError>` protocol: `ok (some t)` parsed,
`ok none` did not match, `error` fatal. -/
def M (α : Type) : Type := PState → Except Fatal α × PState

/-- Monadic `pure` for `M`. -/
def M.pure {α : Type} (a : α) : M α := fun s => (Except.ok a, s)

/-- Monadic `bind` for `M`: sequence two computations, short-circuiting on
a fatal outcome (the state at the failure point is kept). -/
def M.bind {α β : Type} (x : M α) (f : α → M β) : M β := fun s =>
  match x s with
  | (Except.ok a, s') => f a s'
  | (Except.error e, s') => (Except.error e, s')

instance : Monad M where
  pure := M.pure
  bind := M.bind

/-- Throw a fatal outcome. -/
def throwF {α : Type} (e : Fatal) : M α := fun s => (Except.error e, s)

/-- `Parser::next` without error lifting: return the buffered pushback
token if present, else pull from the input; on exhaustion inject the
end-of-file token exactly once, afterwards fail with "read-after-EOF".
Every call records the "expected" description; the trail is cleared (and
the location updated) only when a token is drawn fresh from the input. -/
def pnextE (expected : String) (s : PState) : Except DMError Token × PState :=
  match s.next with
  | some t => (Except.ok t, { s with next := none, expected := s.expected ++ [expected] })
  | none =>
    match s.input with
    | Except.ok lt :: rest =>
        (Except.ok lt.token,
         { s with input := rest, location := lt.location, expected := [expected] })
    | Except.error e :: rest =>
        (Except.error e, { s with input := rest, expected := s.expected ++ [expected] })
    | [] =>
        if s.eof then
          (Except.error ⟨s.location, "read-after-EOF"⟩,
           { s with expected := s.expected ++ [expected] })
        else
          (Except.ok Token.Eof,
           { s with eof := true, expected := s.expected ++ [expected] })

/-- `Parser::next` as used with `?`: a failed pull is a fatal outcome. -/
def pnext (expected : String) : M Token := fun s =>
  match pnextE expected s with
  | (Except.ok t, s') => (Except.ok t, s')
  | (Except.error e, s') => (Except.error (Fatal.err e), s')

/-- `Parser::put_back`: store exactly one token for later consumption; a
second pushback while one is buffered is a contract violation (panic). -/
def put_back (tok : Token) : M Unit := fun s =>
  match s.next with
  | some _ => (Except.error (Fatal.panic "cannot put_back twice"), s)
  | none => (Except.ok (), { s with next := some tok })

/-- `Parser::try_another`: push the offending token back and report "did
not match". -/
def try_another {α : Type} (tok : Token) : M (Option α) := fun s =>
  match put_back tok s with
  | (Except.ok _, s') => (Except.ok none, s')
  | (Except.error e, s') => (Except.error e, s')

/-- `Parser::parse_error`: build the fatal error listing the accumulated
"expected" trail; read the offending token and put it back before
reporting, or note an i/o failure if none could be read. -/
def parse_error {α : Type} : M α := fun s =>
  let expected := String.intercalate ", " s.expected
  match pnextE "" s with
  | (Except.ok got, s') =>
      let message := "got " ++ fmtDebugToken got ++ ", expected one of: " ++ expected
      match put_back got s' with
      | (Except.ok _, s2) => (Except.error (Fatal.err ⟨s2.location, message⟩), s2)
      | (Except.error e, s2) => (Except.error e, s2)
  | (Except.error _, s') =>
      (Except.error (Fatal.err ⟨s'.location, "i/o error, expected one of: " ++ expected⟩), s')

/-- `Parser::require` composed over a rule (the `require!` macro): run the
rule and escalate a "did not match" outcome into a fatal parse error. -/
def require {α : Type} (x : M (Option α)) : M α := fun s =>
  match x s with
  | (Except.ok (some v), s') => (Except.ok v, s')
  | (Except.ok none, s') => parse_error s'
  | (Except.error e, s') => (Except.error e, s')

/-- `Parser::exact`: match one exact token, else put it back. -/
def exact (tok : Token) : M (Option Unit) := fun s =>
  match pnext (fmtDisplayToken tok) s with
  | (Except.ok nx, s') =>
      if nx == tok then (Except.ok (some ()), s') else try_another nx s'
  | (Except.error e, s') => (Except.error e, s')

/-- `Parser::ident`: match an identifier token, else put it back. -/
def ident : M (Option String) := fun s =>
  match pnext "identifier" s with
  | (Except.ok (Token.Ident i _), s') => (Except.ok (some i), s')
  | (Except.ok other, s') => try_another other s'
  | (Except.error e, s') => (Except.error e, s')

/-- `ObjectTree::add_entry`, modelled from the spec as a registration-log
append (registration failures of the external tree are not modelled). -/
def add_entry (path : List String) : M Unit := fun s =>
  (Except.ok (), { s with tree := s.tree ++ [TreeOp.entry s.location path] })

/-- `ObjectTree::add_var`, modelled from the spec as a registration-log
append. -/
def add_var (path : List String) (init : Expression) : M Unit := fun s =>
  (Except.ok (), { s with tree := s.tree ++ [TreeOp.var s.location path init] })

/-- `ObjectTree::add_proc`, modelled from the spec as a registration-log
append. -/
def add_proc (path : List String) : M Unit := fun s =>
  (Except.ok (), { s with tree := s.tree ++ [TreeOp.proc s.location path] })

/-- The `println!` warning about an absolute path inside a nested block,
modelled as an append to the warning log. -/
def add_warning (path : List String) (parent : PathStack) : M Unit := fun s =>
  (Except.ok (), { s with warnings := s.warnings ++ [(path, parent)] })

/-- The initial parser state over a fallible token input. -/
def mkState (input : List (Except DMError LocatedToken)) : PState :=
  { input := input, eof := false, next := none, location := 0,
    expected := [], tree := [], warnings := [] }

/-- The initial parser state over a plain token list (locations all 0). -/
def stateOfToks (ts : List Token) : PState :=
  mkState (ts.map fun t => Except.ok ⟨0, t⟩)

-- ----------------------------------------------------------------------------
-- Group skipper

/-- The remaining-source measure: buffered token, remaining input elements
and the not-yet-emitted end-of-file sentinel.  Every successful pull
decreases it by exactly one. -/
def srcMeasure (s : PState) : Nat :=
  (match s.next with | some _ => 1 | none => 0) + s.input.length +
    (match s.eof with | true => 0 | false => 1)

/-- Depth tracking of the group skipper: a nested open increments, a
matching close decrements, everything else is discarded unchanged. -/
def newDepth (left right : Punctuation) (depth : Nat) (n : Token) : Nat :=
  match n with
  | Token.Punct p => if p == left then depth + 1 else if p == right then depth - 1 else depth
  | _ => depth

/-- The skipping loop of `Parser::ignore_group`: while the depth is
positive, pull a token (failed pulls abort) and adjust the depth.  Defined
by well-founded recursion on the remaining-source measure, so termination
holds unconditionally. -/
def igLoop (left right : Punctuation) (depth : Nat) (s : PState) :
    Except Fatal (Option Unit) × PState :=
  if depth = 0 then (Except.ok (some ()), s)
  else
    match h : pnextE "anything" s with
    | (Except.error e, s') => (Except.error (Fatal.err e), s')
    | (Except.ok n, s') => igLoop left right (newDepth left right depth n) s'
termination_by srcMeasure s
decreasing_by
  rcases s with ⟨inp, eof, nx, loc, exp, tr, w⟩
  cases nx with
  | some t0 =>
      simp only [pnextE, Prod.mk.injEq] at h
      obtain ⟨-, rfl⟩ := h
      simp [srcMeasure]
  | none =>
      cases inp with
      | nil =>
          cases eof with
          | true => simp [pnextE] at h
          | false =>
              simp only [pnextE, Bool.false_eq_true, if_false, Prod.mk.injEq] at h
              obtain ⟨-, rfl⟩ := h
              simp [srcMeasure]
      | cons hd tl =>
          cases hd with
          | ok lt =>
              simp only [pnextE, Prod.mk.injEq] at h
              obtain ⟨-, rfl⟩ := h
              simp [srcMeasure]
          | error er => simp [pnextE] at h

/-- `Parser::ignore_group`: require the opening delimiter, then discard
tokens tracking nested depth until it returns to zero. -/
def ignore_group (left right : Punctuation) : M (Option Unit) := fun s =>
  match exact (Token.Punct left) s with
  | (Except.ok (some _), s') => igLoop left right 1 s'
  | (Except.ok none, s') => (Except.ok none, s')
  | (Except.error e, s') => (Except.error e, s')

/-- Whether every element of the remaining input is a token (no pending
lexer errors). -/
def allOkInput : List (Except DMError LocatedToken) → Bool
  | [] => true
  | Except.ok _ :: rest => allOkInput rest
  | Except.error _ :: _ => false

/-- The sequence of tokens a state can still yield: the buffered pushback
token followed by the input tokens (error elements, excluded by
`allOkInput` where this matters, are mapped to the end-of-file token). -/
def streamToks (s : PState) : List Token :=
  (match s.next with | some t => [t] | none => []) ++
    s.input.map (fun x => match x with
      | Except.ok lt => lt.token
      | Except.error _ => Token.Eof)

/-- Whether the group skipper's depth, starting from `depth`, stays
positive across a whole token sequence (i.e. the matching close delimiter
never appears at top level). -/
def depthRun (left right : Punctuation) : Nat → List Token → Bool
  | _, [] => true
  | depth, t :: ts =>
      let d := newDepth left right depth t
      if d = 0 then false else depthRun left right d ts

-- ----------------------------------------------------------------------------
-- Tree paths

/-- `Parser::path_separator`: match a slash, dot or colon. -/
def path_separator : M (Option PathOp) := fun s =>
  match pnext "path separator" s with
  | (Except.ok (Token.Punct Punctuation.Slash), s') => (Except.ok (some PathOp.Slash), s')
  | (Except.ok (Token.Punct Punctuation.Dot), s') => (Except.ok (some PathOp.Dot), s')
  | (Except.ok (Token.Punct Punctuation.Colon), s') => (Except.ok (some PathOp.Colon), s')
  | (Except.ok other, s') => try_another other s'
  | (Except.error e, s') => (Except.error e, s')

/-- Try to read a binary or assignment operator from a token: the plain
`=` is excluded when assignment is disallowed; otherwise the first
matching entry of `BINARY_OPS` is used. -/
def binop_match (t : Token) (disallow_assign : Bool) : Option OpInfo :=
  match t with
  | Token.Punct p =>
      if p == Punctuation.Assign && disallow_assign then none
      else BINARY_OPS.find? (fun op => op.token == p)
  | _ => none

/-- The left fold of `Parser::expression_part` for left-associative runs:
seed with the first collected operand, fold the chain left, and attach the
final right-hand side with the last operator (the `unwrap`s of the Rust
code are panics, unreachable by construction). -/
def leftFold (bits : List Expression) (ops : List Op) (rhs : Expression) :
    Except Fatal Expression :=
  match bits with
  | [] => Except.error (Fatal.panic "called Option::unwrap on a None value")
  | b0 :: rest =>
      let result := (rest.zip ops).foldl (fun acc p => Op.build p.2 acc p.1) b0
      match ops.drop rest.length with
      | [] => Except.error (Fatal.panic "called Option::unwrap on a None value")
      | op :: _ => Except.ok (Op.build op result rhs)

/-- The right fold of `Parser::expression_part` for right-associative
(assignment) runs: apply operators from the last pair first. -/
def rightFold (bits : List Expression) (ops : List Op) (rhs : Expression) : Expression :=
  (ops.zip bits).foldr (fun p acc => Op.build p.1 p.2 acc) rhs

-- ----------------------------------------------------------------------------
-- The grammar
--
-- The grammar rules are mutually recursive; recursion is made total by a
-- fuel parameter.  So that concrete runs reduce cheaply, the rules are
-- gathered in one structure and fuel is consumed by iterating a
-- non-recursive step functional: at fuel `n + 1` every recursive
-- reference resolves to the bundle at fuel `n`, and fuel 0 yields the
-- `Fatal.oof` bundle (an artifact of the embedding, never reached by the
-- theorems below, which supply enough fuel for their inputs).

/-- One bundle of all grammar rules of the parser; each field embeds the
Rust function (or loop body) of the same name. -/
structure Gram : Type 1 where
  separated : {R : Type} → Punctuation → Punctuation → M (Option R) → Bool → List R →
    M (Option (List R))
  tree_path_loop : List String → M (List String)
  tree_path : M (Option (Bool × List String))
  unary_loop : List UnaryOp → M (List UnaryOp)
  prefab_loop : List (PathOp × String) → M (List (PathOp × String))
  expression : Bool → M (Option Expression)
  expression_loop : Bool → Expression → M (Option Expression)
  expression_part : Expression → OpInfo → Bool → M (Option Expression)
  expression_part_loop : OpInfo → Bool → List Expression → List Op → Expression →
    M (List Expression × List Op × Expression)
  group : M (Option Expression)
  follow_loop : List Follow → M (List Follow)
  term : M (Option Term)
  follow : M (Option Follow)
  arguments : M (Option (List Expression))
  list_arguments : M (Option (List (Expression × Option Expression)))
  list_entry : M (Option (Expression × Option Expression))
  prefab : M (Option Prefab)
  prefab_var : M (Option (String × Expression))
  tree_entry : PathStack → M (Option Unit)
  tree_entry_contents : PathStack → M (Option Unit)
  tree_entries : PathStack → Token → M (Option Unit)
  tree_block : PathStack → M (Option Unit)

/-- The out-of-fuel bundle. -/
def gramBase : Gram where
  separated := fun _ _ _ _ _ => throwF Fatal.oof
  tree_path_loop := fun _ => throwF Fatal.oof
  tree_path := throwF Fatal.oof
  unary_loop := fun _ => throwF Fatal.oof
  prefab_loop := fun _ => throwF Fatal.oof
  expression := fun _ => throwF Fatal.oof
  expression_loop := fun _ _ => throwF Fatal.oof
  expression_part := fun _ _ _ => throwF Fatal.oof
  expression_part_loop := fun _ _ _ _ _ => throwF Fatal.oof
  group := throwF Fatal.oof
  follow_loop := fun _ => throwF Fatal.oof
  term := throwF Fatal.oof
  follow := throwF Fatal.oof
  arguments := throwF Fatal.oof
  list_arguments := throwF Fatal.oof
  list_entry := throwF Fatal.oof
  prefab := throwF Fatal.oof
  prefab_var := throwF Fatal.oof
  tree_entry := fun _ => throwF Fatal.oof
  tree_entry_contents := fun _ => throwF Fatal.oof
  tree_entries := fun _ _ => throwF Fatal.oof
  tree_block := fun _ => throwF Fatal.oof

/-- One step of the grammar: every rule body, with recursive references
resolved in the previous bundle `prev`. -/
def gramStep (prev : Gram) : Gram where
  /- The loop of `Parser::separated`: read the terminator (done), a legal
  separator, or a required element via `f`; anything else is fatal. -/
  separated := fun sep terminator f comma_legal elems => do
    let nx ← pnext "list element"
    if nx == Token.Punct terminator then
      pure (some elems)
    else if comma_legal && nx == Token.Punct sep then
      prev.separated sep terminator f false elems
    else if !comma_legal then do
      put_back nx
      let v ← require f
      prev.separated sep terminator f true (elems ++ [v])
    else do
      put_back nx
      parse_error
  /- The separator loop of `Parser::tree_path`: on a slash, an optional
  identifier (an absent one is skipped); any other token ends the path. -/
  tree_path_loop := fun parts => do
    match ← pnext "path separator" with
    | Token.Punct Punctuation.Slash => do
        match ← ident with
        | some i => prev.tree_path_loop (parts ++ [i])
        | none => prev.tree_path_loop parts
    | t => do
        put_back t
        pure parts
  /- `Parser::tree_path`: optional leading slash (absolute marker), one
  required identifier (a leading slash with no identifier is a committed,
  fatal failure), then the separator loop. -/
  tree_path := do
    let absolute ← do
      match ← exact (Token.Punct Punctuation.Slash) with
      | some _ => pure true
      | none => pure false
    match ← ident with
    | some i => do
        let parts ← prev.tree_path_loop [i]
        pure (some (absolute, parts))
    | none =>
        if !absolute then pure none
        else parse_error
  /- The unary-prefix loop of `Parser::group`. -/
  unary_loop := fun acc => do
    match ← pnext "unary operator" with
    | Token.Punct Punctuation.Sub => prev.unary_loop (acc ++ [UnaryOp.Neg])
    | Token.Punct Punctuation.Not => prev.unary_loop (acc ++ [UnaryOp.Not])
    | Token.Punct Punctuation.BitNot => prev.unary_loop (acc ++ [UnaryOp.BitNot])
    | other => do
        put_back other
        pure acc
  /- The `(path_sep ident?)*` loop of `Parser::prefab` (empty path
  elements are ignored). -/
  prefab_loop := fun parts => do
    match ← path_separator with
    | some sep => do
        match ← ident with
        | some i => prev.prefab_loop (parts ++ [(sep, i)])
        | none => prev.prefab_loop parts
    | none => pure parts
  /- `Parser::expression`: parse a group, then repeatedly trampoline it as
  the left-hand side of each binary/assignment operator found. -/
  expression := fun disallow_assign => do
    let some expr ← prev.group | return none
    prev.expression_loop disallow_assign expr
  /- The operator loop of `Parser::expression`: a non-operator token is
  put back and ends the expression. -/
  expression_loop := fun disallow_assign expr => do
    let nx ← pnext "binary operator"
    match binop_match nx disallow_assign with
    | some info => do
        let expr2 ← require (prev.expression_part expr info disallow_assign)
        prev.expression_loop disallow_assign expr2
    | none => do
        put_back nx
        pure (some expr)
  /- `Parser::expression_part`: collect a run of operators at the strength
  of `prev_op` (recursing into strictly stronger ones, returning
  unconsumed strictly weaker ones), then fold the run right for
  right-binding (assignment) operators and left otherwise. -/
  expression_part := fun lhs prev_op disallow_assign => do
    let rhs0 ← require prev.group
    let (bits, ops, rhs) ← prev.expression_part_loop prev_op disallow_assign
      [lhs] [prev_op.oper] rhs0
    if prev_op.right_binding then
      pure (some (rightFold bits ops rhs))
    else
      match leftFold bits ops rhs with
      | Except.ok e => pure (some e)
      | Except.error f => throwF f
  /- The collection loop of `Parser::expression_part`: stronger operator →
  recurse down; weaker → put its token back and stop; equal → extend the
  flat run. -/
  expression_part_loop := fun prev_op disallow_assign bits ops rhs => do
    let nx ← pnext "binary operator"
    match binop_match nx disallow_assign with
    | none => do
        put_back nx
        pure (bits, ops, rhs)
    | some info =>
        if info.strength > prev_op.strength then do
          let rhs2 ← require (prev.expression_part rhs info disallow_assign)
          prev.expression_part_loop prev_op disallow_assign bits ops rhs2
        else if info.strength < prev_op.strength then do
          put_back (Token.Punct info.token)
          pure (bits, ops, rhs)
        else do
          let rhs2 ← require prev.group
          prev.expression_part_loop prev_op disallow_assign
            (bits ++ [rhs]) (ops ++ [info.oper]) rhs2
  /- `Parser::group`: unary prefixes (committing once nonempty), one term,
  then a chain of follows. -/
  group := do
    let unary_ops ← prev.unary_loop []
    let term_opt ←
      if unary_ops.length > 0 then do
        let t ← require prev.term
        pure (some t)
      else prev.term
    match term_opt with
    | none => pure none
    | some t => do
        let fol ← prev.follow_loop []
        pure (some (Expression.Base unary_ops t fol))
  /- The follow-chain loop of `Parser::group`. -/
  follow_loop := fun acc => do
    match ← prev.follow with
    | some f => prev.follow_loop (acc ++ [f])
    | none => pure acc
  /- `Parser::term`: `new` constructions, `list` literals, prefab
  literals, identifiers (calls when followed by arguments), literals and
  parenthesized sub-expressions. -/
  term := do
    match ← pnext "term" with
    | Token.Ident i ws =>
        if i == "new" then do
          let t ← do
            match ← ident with
            | some id2 => pure (NewType.Ident id2)
            | none => do
                match ← prev.prefab with
                | some path => pure (NewType.Prefab path)
                | none => pure NewType.Implicit
          let a ← prev.arguments
          pure (some (Term.New t a))
        else if i == "list" then do
          match ← prev.list_arguments with
          | some args => pure (some (Term.List args))
          | none => pure (some (Term.Ident "list"))
        else do
          match ← prev.arguments with
          | some args => pure (some (Term.Call i args))
          | none => pure (some (Term.Ident i))
    | Token.Punct Punctuation.Slash => do
        put_back (Token.Punct Punctuation.Slash)
        let p ← require prev.prefab
        pure (some (Term.Prefab p))
    | Token.Punct Punctuation.Dot => do
        put_back (Token.Punct Punctuation.Dot)
        let p ← require prev.prefab
        pure (some (Term.Prefab p))
    | Token.Punct Punctuation.Colon => do
        put_back (Token.Punct Punctuation.Colon)
        let p ← require prev.prefab
        pure (some (Term.Prefab p))
    | Token.String s => pure (some (Term.String s))
    | Token.Resource s => pure (some (Term.Resource s))
    | Token.Int v => pure (some (Term.Int v))
    | Token.Float v => pure (some (Term.Float v))
    | Token.Punct Punctuation.LParen => do
        let e ← require (prev.expression false)
        let _ ← require (exact (Token.Punct Punctuation.RParen))
        pure (some (Term.Expr e))
    | other => try_another other
  /- `Parser::follow`: field access or method call after a dot, indexing
  after an opening bracket, or an `as` cast. -/
  follow := do
    match ← pnext "field, index, or function call" with
    | Token.Punct Punctuation.Dot => do
        let id2 ← require ident
        match ← prev.arguments with
        | some args => pure (some (Follow.Call id2 args))
        | none => pure (some (Follow.Field id2))
    | Token.Punct Punctuation.LBracket => do
        let e ← require (prev.expression false)
        let _ ← require (exact (Token.Punct Punctuation.RBracket))
        pure (some (Follow.Index e))
    | Token.Ident id2 ws =>
        if id2 == "as" then do
          let cast ← require ident
          pure (some (Follow.Cast cast))
        else try_another (Token.Ident id2 ws)
    | other => try_another other
  /- `Parser::arguments`: a parenthesized, comma-separated expression
  list. -/
  arguments := do
    let some _ ← exact (Token.Punct Punctuation.LParen) | return none
    let v ← require (prev.separated Punctuation.Comma Punctuation.RParen
      (prev.expression false) false [])
    pure (some v)
  /- `Parser::list_arguments`: a parenthesized, comma-separated list of
  entries, each optionally keyed (`expr = expr`, the first expression
  parsed with assignment disallowed). -/
  list_arguments := do
    let some _ ← exact (Token.Punct Punctuation.LParen) | return none
    let v ← require (prev.separated Punctuation.Comma Punctuation.RParen
      prev.list_entry false [])
    pure (some v)
  /- One entry of a `list` literal. -/
  list_entry := do
    let first_expr ← require (prev.expression true)
    match ← exact (Token.Punct Punctuation.Assign) with
    | some _ => do
        let second_expr ← require (prev.expression false)
        pure (some (first_expr, some second_expr))
    | none => pure (some (first_expr, none))
  /- `Parser::prefab`: a path-literal beginning with any path separator,
  with optional inline variable overrides in braces. -/
  prefab := do
    let some sep0 ← path_separator | return none
    let id0 ← require ident
    let parts ← prev.prefab_loop [(sep0, id0)]
    let vars ← do
      match ← exact (Token.Punct Punctuation.LBrace) with
      | some _ => do
          match ← prev.separated Punctuation.Semicolon Punctuation.RBrace
              prev.prefab_var false [] with
          | some kvs => pure (kvs.foldl (fun m p => lhmInsert p.1 p.2 m) [])
          | none => pure []
      | none => pure []
    pure (some (Prefab.mk parts vars))
  /- One variable override inside a prefab literal (`ident '='
  expression`); the Rust closure inserts into the map directly, modelled
  here by returning the pair and folding with the map insertion in
  `prefab`. -/
  prefab_var := do
    let key ← require ident
    let _ ← require (exact (Token.Punct Punctuation.Assign))
    let value ← require (prev.expression false)
    pure (some (key, value))
  /- `Parser::tree_entry`: read a path, extend (or, for an absolute path,
  reparent) the path stack, discard an optional list-size annotation, then
  dispatch on the contents. -/
  tree_entry := fun parent => do
    let some (absolute, path) ← prev.tree_path | return none
    if absolute && (PathStack.parent parent).isSome then
      add_warning path parent
    else
      pure ()
    let new_stack := PathStack.mk (if absolute then none else some parent) path
    match ← pnext "[" with
    | Token.Punct Punctuation.LBracket => do
        put_back (Token.Punct Punctuation.LBracket)
        let _ ← require (ignore_group Punctuation.LBracket Punctuation.RBracket)
        prev.tree_entry_contents new_stack
    | t => do
        put_back t
        prev.tree_entry_contents new_stack
  /- The contents dispatch of `Parser::tree_entry` (the code after the
  list-size discard): a block, a variable initializer, a procedure
  declaration, or a bare entry. -/
  tree_entry_contents := fun new_stack => do
    match ← pnext "contents" with
    | Token.Punct Punctuation.LBrace => do
        add_entry (PathStack.iter new_stack)
        put_back (Token.Punct Punctuation.LBrace)
        let _ ← require (prev.tree_block new_stack)
        pure (some ())
    | Token.Punct Punctuation.Assign => do
        let expr ← require (prev.expression false)
        let _ ← require (exact (Token.Punct Punctuation.Semicolon))
        add_var (PathStack.iter new_stack) expr
        pure (some ())
    | Token.Punct Punctuation.LParen => do
        add_proc (PathStack.iter new_stack)
        put_back (Token.Punct Punctuation.LParen)
        let _ ← require (ignore_group Punctuation.LParen Punctuation.RParen)
        match ← pnext "contents2" with
        | Token.Punct Punctuation.LBrace => do
            put_back (Token.Punct Punctuation.LBrace)
            let _ ← require (ignore_group Punctuation.LBrace Punctuation.RBrace)
            pure (some ())
        | t2 => do
            put_back t2
            pure (some ())
    | other => do
        add_entry (PathStack.iter new_stack)
        put_back other
        pure (some ())
  /- `Parser::tree_entries`: read entries until the terminator or the
  end-of-file token; bare semicolons are skipped. -/
  tree_entries := fun parent terminator => do
    let nx ← pnext ("newline or " ++ fmtDebugToken terminator)
    if nx == terminator || nx == Token.Eof then
      pure (some ())
    else if nx == Token.Punct Punctuation.Semicolon then
      prev.tree_entries parent terminator
    else do
      put_back nx
      let _ ← require (prev.tree_entry parent)
      prev.tree_entries parent terminator
  /- `Parser::tree_block`: an opening brace, then entries up to the
  closing brace. -/
  tree_block := fun parent => do
    let some _ ← exact (Token.Punct Punctuation.LBrace) | return none
    let r ← require (prev.tree_entries parent (Token.Punct Punctuation.RBrace))
    pure (some r)

/-- The grammar bundle at a given fuel: `fuel`-fold iteration of the step
functional (plain recursor iteration, so concrete runs reduce by
unfolding). -/
def gram (fuel : Nat) : Gram :=
  @Nat.rec (fun _ => Gram) gramBase (fun _ ih => gramStep ih) fuel

/-- `Parser::expression` at a given fuel. -/
def expression (fuel : Nat) (disallow_assign : Bool) : M (Option Expression) :=
  (gram fuel).expression disallow_assign

/-- `Parser::expression_part` at a given fuel. -/
def expression_part (fuel : Nat) (lhs : Expression) (prev_op : OpInfo)
    (disallow_assign : Bool) : M (Option Expression) :=
  (gram fuel).expression_part lhs prev_op disallow_assign

/-- `Parser::group` at a given fuel. -/
def group (fuel : Nat) : M (Option Expression) :=
  (gram fuel).group

/-- `Parser::term` at a given fuel. -/
def term (fuel : Nat) : M (Option Term) :=
  (gram fuel).term

/-- `Parser::follow` at a given fuel. -/
def follow (fuel : Nat) : M (Option Follow) :=
  (gram fuel).follow

/-- `Parser::arguments` at a given fuel. -/
def arguments (fuel : Nat) : M (Option (List Expression)) :=
  (gram fuel).arguments

/-- `Parser::list_arguments` at a given fuel. -/
def list_arguments (fuel : Nat) : M (Option (List (Expression × Option Expression))) :=
  (gram fuel).list_arguments

/-- `Parser::prefab` at a given fuel. -/
def prefab (fuel : Nat) : M (Option Prefab) :=
  (gram fuel).prefab

/-- `Parser::separated` at a given fuel. -/
def separated {R : Type} (fuel : Nat) (sep terminator : Punctuation) (f : M (Option R)) :
    M (Option (List R)) :=
  (gram fuel).separated sep terminator f false []

/-- `Parser::comma_sep` at a given fuel. -/
def comma_sep {R : Type} (fuel : Nat) (terminator : Punctuation) (f : M (Option R)) :
    M (Option (List R)) :=
  separated fuel Punctuation.Comma terminator f

/-- `Parser::tree_path` at a given fuel. -/
def tree_path (fuel : Nat) : M (Option (Bool × List String)) :=
  (gram fuel).tree_path

/-- `Parser::tree_entry` at a given fuel. -/
def tree_entry (fuel : Nat) (parent : PathStack) : M (Option Unit) :=
  (gram fuel).tree_entry parent

/-- `Parser::tree_entries` at a given fuel. -/
def tree_entries (fuel : Nat) (parent : PathStack) (terminator : Token) : M (Option Unit) :=
  (gram fuel).tree_entries parent terminator

/-- `Parser::tree_block` at a given fuel. -/
def tree_block (fuel : Nat) (parent : PathStack) : M (Option Unit) :=
  (gram fuel).tree_block parent

/-- `Parser::root`: entries at the root path, terminated by end-of-file. -/
def root (fuel : Nat) : M (Option Unit) :=
  tree_entries fuel (PathStack.mk none []) Token.Eof

/-- The `parse` entry point: run the root rule, escalate a "did not match"
outcome through `parse_error`, and return the registration log (the
external tree finalization is modelled as the identity). -/
def parse (fuel : Nat) (input : List (Except DMError LocatedToken)) :
    Except Fatal (List TreeOp) :=
  match root fuel (mkState input) with
  | (Except.ok (some _), s) => Except.ok s.tree
  | (Except.ok none, s) =>
      match (parse_error : M (List TreeOp)) s with
      | (Except.ok v, _) => Except.ok v
      | (Except.error e, _) => Except.error e
  | (Except.error e, _) => Except.error e

-- ==========================================================================
-- Theorems
-- ==========================================================================

/-- A successful pull strictly decreases the remaining-source measure. -/
theorem pnextE_ok_measure {e : String} {s : PState} {t : Token} {s' : PState}
    (h : pnextE e s = (Except.ok t, s')) : srcMeasure s' < srcMeasure s := by
  rcases s with ⟨inp, eof, nx, loc, exp, tr, w⟩
  cases nx with
  | some t0 =>
      simp only [pnextE, Prod.mk.injEq] at h
      obtain ⟨-, rfl⟩ := h
      simp [srcMeasure]
  | none =>
      cases inp with
      | nil =>
          cases eof with
          | true => simp [pnextE] at h
          | false =>
              simp only [pnextE, Bool.false_eq_true, if_false, Prod.mk.injEq] at h
              obtain ⟨-, rfl⟩ := h
              simp [srcMeasure]
      | cons hd tl =>
          cases hd with
          | ok lt =>
              simp only [pnextE, Prod.mk.injEq] at h
              obtain ⟨-, rfl⟩ := h
              simp [srcMeasure]
          | error er => simp [pnextE] at h

/-- After a successful pull the pushback buffer is empty. -/
theorem pnextE_ok_next_none {e : String} {s : PState} {t : Token} {s' : PState}
    (h : pnextE e s = (Except.ok t, s')) : s'.next = none := by
  rcases s with ⟨inp, eof, nx, loc, exp, tr, w⟩
  cases nx with
  | some t0 =>
      simp only [pnextE, Prod.mk.injEq] at h
      obtain ⟨-, rfl⟩ := h
      rfl
  | none =>
      cases inp with
      | nil =>
          cases eof with
          | true => simp [pnextE] at h
          | false =>
              simp only [pnextE, Bool.false_eq_true, if_false, Prod.mk.injEq] at h
              obtain ⟨-, rfl⟩ := h
              rfl
      | cons hd tl =>
          cases hd with
          | ok lt =>
              simp only [pnextE, Prod.mk.injEq] at h
              obtain ⟨-, rfl⟩ := h
              rfl
          | error er => simp [pnextE] at h

/-- Boolean equality on punctuation is reflexive. -/
theorem punct_beq_refl (p : Punctuation) : (p == p) = true := by
  cases p <;> rfl

/-- Claim C1: a bare declaration `a/b/c;` at the root registers the entry
with path segments `[a, b, c]`; a relative path `c/d;` declared inside the
block `/a/b { ... }` registers as `[a, b, c, d]` (the enclosing lineage
concatenated, outermost segments first); and an absolute path `/x/y;`
declared inside that same non-root block registers as `[x, y]`,
root-relative, discarding the enclosing lineage. -/
theorem claim_C1 (a b c d x y : String) (w1 w2 w3 w4 w5 w6 : Bool) :
    ((root 30 (stateOfToks [Token.Ident a w1, Token.Punct Punctuation.Slash,
        Token.Ident b w2, Token.Punct Punctuation.Slash, Token.Ident c w3,
        Token.Punct Punctuation.Semicolon])).1 = Except.ok (some ()) ∧
      (root 30 (stateOfToks [Token.Ident a w1, Token.Punct Punctuation.Slash,
        Token.Ident b w2, Token.Punct Punctuation.Slash, Token.Ident c w3,
        Token.Punct Punctuation.Semicolon])).2.tree = [TreeOp.entry 0 [a, b, c]]) ∧
    ((root 30 (stateOfToks [Token.Punct Punctuation.Slash, Token.Ident a w1,
        Token.Punct Punctuation.Slash, Token.Ident b w2, Token.Punct Punctuation.LBrace,
        Token.Ident c w3, Token.Punct Punctuation.Slash, Token.Ident d w4,
        Token.Punct Punctuation.Semicolon,
        Token.Punct Punctuation.Slash, Token.Ident x w5, Token.Punct Punctuation.Slash,
        Token.Ident y w6, Token.Punct Punctuation.Semicolon,
        Token.Punct Punctuation.RBrace])).1 = Except.ok (some ()) ∧
      (root 30 (stateOfToks [Token.Punct Punctuation.Slash, Token.Ident a w1,
        Token.Punct Punctuation.Slash, Token.Ident b w2, Token.Punct Punctuation.LBrace,
        Token.Ident c w3, Token.Punct Punctuation.Slash, Token.Ident d w4,
        Token.Punct Punctuation.Semicolon,
        Token.Punct Punctuation.Slash, Token.Ident x w5, Token.Punct Punctuation.Slash,
        Token.Ident y w6, Token.Punct Punctuation.Semicolon,
        Token.Punct Punctuation.RBrace])).2.tree =
      [TreeOp.entry 0 [a, b], TreeOp.entry 0 [a, b, c, d], TreeOp.entry 0 [x, y]]) :=
  ⟨⟨rfl, rfl⟩, ⟨rfl, rfl⟩⟩

/-- Claim C2: the expression `1 + 2 * 3` parses as `Add(1, Mul(2, 3))` —
the strictly stronger `*` appearing after the weaker `+` is absorbed by
recursion, binding its operands tighter. -/
theorem claim_C2 :
    (expression 20 false (stateOfToks [Token.Int 1, Token.Punct Punctuation.Add,
      Token.Int 2, Token.Punct Punctuation.Mul, Token.Int 3])).1 =
    Except.ok (some (Expression.BinaryOp BinaryOp.Add
      (Expression.Base [] (Term.Int 1) [])
      (Expression.BinaryOp BinaryOp.Mul
        (Expression.Base [] (Term.Int 2) [])
        (Expression.Base [] (Term.Int 3) [])))) := rfl

/-- Claim C3: the expression `a = b = c` parses as
`Assign(a, Assign(b, c))` — an equal-strength run of right-binding
assignment operators is folded from the last operand pair first. -/
theorem claim_C3 :
    (expression 20 false (stateOfToks [Token.Ident "a" false,
      Token.Punct Punctuation.Assign, Token.Ident "b" false,
      Token.Punct Punctuation.Assign, Token.Ident "c" false])).1 =
    Except.ok (some (Expression.AssignOp AssignOp.Assign
      (Expression.Base [] (Term.Ident "a") [])
      (Expression.AssignOp AssignOp.Assign
        (Expression.Base [] (Term.Ident "b") [])
        (Expression.Base [] (Term.Ident "c") [])))) := rfl

/-- Claim C4: the expression `1 - 2 - 3` parses as `Sub(Sub(1, 2), 3)` —
an equal-strength run of non-right-binding operators is collected into a
flat list and folded left. -/
theorem claim_C4 :
    (expression 20 false (stateOfToks [Token.Int 1, Token.Punct Punctuation.Sub,
      Token.Int 2, Token.Punct Punctuation.Sub, Token.Int 3])).1 =
    Except.ok (some (Expression.BinaryOp BinaryOp.Sub
      (Expression.BinaryOp BinaryOp.Sub
        (Expression.Base [] (Term.Int 1) [])
        (Expression.Base [] (Term.Int 2) []))
      (Expression.Base [] (Term.Int 3) []))) := rfl

/-- Claim C5: applying `require` to a rule that reports "did not match"
aborts with a fatal error whose message lists every accumulated "expected"
description, and the offending token read at the failure point (here
readable as `t`) is put back into the single-token buffer before the
error is returned. -/
theorem claim_C5 {α : Type} (x : M (Option α)) (s s₁ s₂ : PState) (t : Token)
    (hx : x s = (Except.ok none, s₁))
    (ht : pnextE "" s₁ = (Except.ok t, s₂)) :
    require x s =
      (Except.error (Fatal.err ⟨s₂.location,
        "got " ++ fmtDebugToken t ++ ", expected one of: " ++
          String.intercalate ", " s₁.expected⟩),
       { s₂ with next := some t }) := by
  have hn : s₂.next = none := pnextE_ok_next_none ht
  simp only [require, parse_error, put_back, hx, ht, hn]

/-- Witness for claim C5: `require` over a failed identifier match on a
semicolon input escalates to the fatal "expected" error and buffers the
semicolon back. -/
theorem claim_C5_witness :
    require ident (stateOfToks [Token.Punct Punctuation.Semicolon]) =
      (Except.error (Fatal.err ⟨0,
        "got " ++ fmtDebugToken (Token.Punct Punctuation.Semicolon) ++
          ", expected one of: " ++ String.intercalate ", " ["identifier"]⟩),
       { input := [], eof := false, next := some (Token.Punct Punctuation.Semicolon),
         location := 0, expected := ["identifier", ""], tree := [], warnings := [] }) :=
  claim_C5 ident (stateOfToks [Token.Punct Punctuation.Semicolon])
    { input := [], eof := false, next := some (Token.Punct Punctuation.Semicolon),
      location := 0, expected := ["identifier"], tree := [], warnings := [] }
    { input := [], eof := false, next := none,
      location := 0, expected := ["identifier", ""], tree := [], warnings := [] }
    (Token.Punct Punctuation.Semicolon) rfl rfl

/-- Claim C6: with the input exhausted and no token buffered, the next
pull returns the end-of-file token exactly once; every subsequent pull
(with the buffer again empty) returns the fatal "read-after-EOF" error —
as a fatal outcome, never a token and never a recoverable "did not match"
outcome. -/
theorem claim_C6 (e₁ e₂ : String) (s : PState)
    (hin : s.input = []) (hbuf : s.next = none) (heof : s.eof = false) :
    pnextE e₁ s = (Except.ok Token.Eof,
      { s with eof := true, expected := s.expected ++ [e₁] }) ∧
    (∀ s' : PState, s'.input = [] → s'.next = none → s'.eof = true →
      pnextE e₂ s' = (Except.error ⟨s'.location, "read-after-EOF"⟩,
        { s' with expected := s'.expected ++ [e₂] }) ∧
      pnext e₂ s' = (Except.error (Fatal.err ⟨s'.location, "read-after-EOF"⟩),
        { s' with expected := s'.expected ++ [e₂] })) := by
  constructor
  · rcases s with ⟨inp, eof, nx, loc, exp, tr, w⟩
    obtain rfl : inp = [] := hin
    obtain rfl : nx = none := hbuf
    obtain rfl : eof = false := heof
    rfl
  · intro s' h1 h2 h3
    rcases s' with ⟨inp, eof, nx, loc, exp, tr, w⟩
    obtain rfl : inp = [] := h1
    obtain rfl : nx = none := h2
    obtain rfl : eof = true := h3
    exact ⟨rfl, rfl⟩

/-- Witness for claim C6: on the empty input the first pull yields the
end-of-file token once, flipping the end-of-file flag. -/
theorem claim_C6_witness :
    pnextE "first" (mkState []) = (Except.ok Token.Eof,
      { mkState [] with eof := true, expected := (mkState []).expected ++ ["first"] }) :=
  (claim_C6 "first" "second" (mkState []) rfl rfl rfl).1

/-- Claim C7: a tree path written with a trailing separator and no
following identifier (`a/b/`) parses to exactly the segments before the
trailing separator, `[a, b]` — the trailing separator is consumed, the
parse succeeds, and no empty trailing segment is produced. -/
theorem claim_C7 (a b : String) (w1 w2 : Bool) :
    (tree_path 20 (stateOfToks [Token.Ident a w1, Token.Punct Punctuation.Slash,
      Token.Ident b w2, Token.Punct Punctuation.Slash])).1 =
      Except.ok (some (false, [a, b])) ∧
    (tree_path 20 (stateOfToks [Token.Ident a w1, Token.Punct Punctuation.Slash,
      Token.Ident b w2, Token.Punct Punctuation.Slash])).2.input = [] :=
  ⟨rfl, rfl⟩

/-- Claim C9: with assignment disallowed (as for the first expression of a
keyed list-literal entry), only the plain `=` token is excluded from
operator matching — it is left unconsumed (put back) and the expression
ends before it — while every compound assignment operator (`+=`, `-=`,
`*=`, `/=`, `&=`, `|=`, `^=`, `<<=`, `>>=`) is still matched and consumed,
producing an `AssignOp` node; the final conjunct shows this inside the
keyed list-literal entry context `list(a += b)` itself. -/
theorem claim_C9 :
    ((expression 20 true (stateOfToks [Token.Ident "a" false,
        Token.Punct Punctuation.AddAssign, Token.Ident "b" false])).1 =
      Except.ok (some (Expression.AssignOp AssignOp.AddAssign
        (Expression.Base [] (Term.Ident "a") [])
        (Expression.Base [] (Term.Ident "b") []))) ∧
      (expression 20 true (stateOfToks [Token.Ident "a" false,
        Token.Punct Punctuation.SubAssign, Token.Ident "b" false])).1 =
      Except.ok (some (Expression.AssignOp AssignOp.SubAssign
        (Expression.Base [] (Term.Ident "a") [])
        (Expression.Base [] (Term.Ident "b") []))) ∧
      (expression 20 true (stateOfToks [Token.Ident "a" false,
        Token.Punct Punctuation.MulAssign, Token.Ident "b" false])).1 =
      Except.ok (some (Expression.AssignOp AssignOp.MulAssign
        (Expression.Base [] (Term.Ident "a") [])
        (Expression.Base [] (Term.Ident "b") []))) ∧
      (expression 20 true (stateOfToks [Token.Ident "a" false,
        Token.Punct Punctuation.DivAssign, Token.Ident "b" false])).1 =
      Except.ok (some (Expression.AssignOp AssignOp.DivAssign
        (Expression.Base [] (Term.Ident "a") [])
        (Expression.Base [] (Term.Ident "b") []))) ∧
      (expression 20 true (stateOfToks [Token.Ident "a" false,
        Token.Punct Punctuation.BitAndAssign, Token.Ident "b" false])).1 =
      Except.ok (some (Expression.AssignOp AssignOp.BitAndAssign
        (Expression.Base [] (Term.Ident "a") [])
        (Expression.Base [] (Term.Ident "b") []))) ∧
      (expression 20 true (stateOfToks [Token.Ident "a" false,
        Token.Punct Punctuation.BitOrAssign, Token.Ident "b" false])).1 =
      Except.ok (some (Expression.AssignOp AssignOp.BitOrAssign
        (Expression.Base [] (Term.Ident "a") [])
        (Expression.Base [] (Term.Ident "b") []))) ∧
      (expression 20 true (stateOfToks [Token.Ident "a" false,
        Token.Punct Punctuation.BitXorAssign, Token.Ident "b" false])).1 =
      Except.ok (some (Expression.AssignOp AssignOp.BitXorAssign
        (Expression.Base [] (Term.Ident "a") [])
        (Expression.Base [] (Term.Ident "b") []))) ∧
      (expression 20 true (stateOfToks [Token.Ident "a" false,
        Token.Punct Punctuation.LShiftAssign, Token.Ident "b" false])).1 =
      Except.ok (some (Expression.AssignOp AssignOp.LShiftAssign
        (Expression.Base [] (Term.Ident "a") [])
        (Expression.Base [] (Term.Ident "b") []))) ∧
      (expression 20 true (stateOfToks [Token.Ident "a" false,
        Token.Punct Punctuation.RShiftAssign, Token.Ident "b" false])).1 =
      Except.ok (some (Expression.AssignOp AssignOp.RShiftAssign
        (Expression.Base [] (Term.Ident "a") [])
        (Expression.Base [] (Term.Ident "b") [])))) ∧
    ((expression 20 true (stateOfToks [Token.Ident "a" false,
        Token.Punct Punctuation.Assign, Token.Ident "b" false])).1 =
      Except.ok (some (Expression.Base [] (Term.Ident "a") [])) ∧
      (expression 20 true (stateOfToks [Token.Ident "a" false,
        Token.Punct Punctuation.Assign, Token.Ident "b" false])).2.next =
      some (Token.Punct Punctuation.Assign)) ∧
    (expression 20 false (stateOfToks [Token.Ident "list" false,
      Token.Punct Punctuation.LParen, Token.Ident "a" false,
      Token.Punct Punctuation.AddAssign, Token.Ident "b" false,
      Token.Punct Punctuation.RParen])).1 =
    Except.ok (some (Expression.Base []
      (Term.List [(Expression.AssignOp AssignOp.AddAssign
        (Expression.Base [] (Term.Ident "a") [])
        (Expression.Base [] (Term.Ident "b") []), none)]) [])) :=
  ⟨⟨rfl, rfl, rfl, rfl, rfl, rfl, rfl, rfl, rfl⟩, ⟨rfl, rfl⟩, rfl⟩

/-- Claim C10: a block entered via `{` returns success from entry reading
as soon as the end-of-file token is seen, even though the matching `}`
never appears — the missing closing brace is not a parse error at the
entry-reading level, and every entry read before end-of-file remains
registered in the object tree. -/
theorem claim_C10 (a b : String) (w1 w2 : Bool) :
    (tree_entry 30 (PathStack.mk none []) (stateOfToks [Token.Ident a w1,
      Token.Punct Punctuation.LBrace, Token.Ident b w2,
      Token.Punct Punctuation.Semicolon])).1 = Except.ok (some ()) ∧
    (tree_entry 30 (PathStack.mk none []) (stateOfToks [Token.Ident a w1,
      Token.Punct Punctuation.LBrace, Token.Ident b w2,
      Token.Punct Punctuation.Semicolon])).2.tree =
      [TreeOp.entry 0 [a], TreeOp.entry 0 [a, b]] ∧
    (tree_entry 30 (PathStack.mk none []) (stateOfToks [Token.Ident a w1,
      Token.Punct Punctuation.LBrace, Token.Ident b w2,
      Token.Punct Punctuation.Semicolon])).2.eof = true :=
  ⟨rfl, rfl, rfl⟩


/-- Once committed inside a group (positive depth), if the matching close
delimiter never brings the depth back to zero across the whole remaining
well-formed token stream, the skipping loop drains the input, consumes the
end-of-file sentinel, and fails with the token source's "read-after-EOF"
error. -/
theorem igLoop_unbalanced (left right : Punctuation) :
    ∀ (n : Nat) (s : PState) (depth : Nat), srcMeasure s ≤ n → 0 < depth →
      allOkInput s.input = true →
      depthRun left right depth (streamToks s) = true →
      ∃ st : PState, igLoop left right depth s =
          (Except.error (Fatal.err ⟨st.location, "read-after-EOF"⟩), st) ∧
        st.input = [] ∧ st.next = none ∧ st.eof = true := by
  intro n
  induction n with
  | zero =>
      intro s depth hm hd hok hrun
      rcases s with ⟨inp, eof, nx, loc, exp, tr, w⟩
      cases nx with
      | some t0 => simp [srcMeasure] at hm
      | none =>
          cases inp with
          | cons hd tl => simp [srcMeasure] at hm
          | nil =>
              cases eof with
              | false => simp [srcMeasure] at hm
              | true =>
                  have hp : pnextE "anything" ⟨[], true, none, loc, exp, tr, w⟩ =
                      (Except.error ⟨loc, "read-after-EOF"⟩,
                       ⟨[], true, none, loc, exp ++ ["anything"], tr, w⟩) := rfl
                  rw [igLoop, if_neg (by omega : ¬ depth = 0)]
                  split
                  next e s' heq =>
                    rw [hp] at heq
                    simp only [Prod.mk.injEq] at heq
                    obtain ⟨he, rfl⟩ := heq
                    obtain rfl : e = ⟨loc, "read-after-EOF"⟩ := by
                      cases he
                      rfl
                    exact ⟨⟨[], true, none, loc, exp ++ ["anything"], tr, w⟩,
                      rfl, rfl, rfl, rfl⟩
                  next nn s' heq =>
                    rw [hp] at heq
                    simp at heq
  | succ n ih =>
      intro s depth hm hd hok hrun
      rcases s with ⟨inp, eof, nx, loc, exp, tr, w⟩
      cases nx with
      | some t0 =>
          have hp : pnextE "anything" ⟨inp, eof, some t0, loc, exp, tr, w⟩ =
              (Except.ok t0, ⟨inp, eof, none, loc, exp ++ ["anything"], tr, w⟩) := rfl
          rw [igLoop, if_neg (by omega : ¬ depth = 0)]
          split
          next e s' heq =>
            rw [hp] at heq
            simp at heq
          next nn s' heq =>
            rw [hp] at heq
            simp only [Prod.mk.injEq] at heq
            obtain ⟨he, rfl⟩ := heq
            obtain rfl : t0 = nn := by
              cases he
              rfl
            have hstep : streamToks ⟨inp, eof, some t0, loc, exp, tr, w⟩ =
                t0 :: streamToks ⟨inp, eof, none, loc, exp ++ ["anything"], tr, w⟩ := rfl
            rw [hstep] at hrun
            simp only [depthRun] at hrun
            by_cases hz : newDepth left right depth t0 = 0
            · rw [if_pos hz] at hrun
              exact absurd hrun (by simp)
            · rw [if_neg hz] at hrun
              exact ih _ (newDepth left right depth t0)
                (by simp [srcMeasure] at hm ⊢; omega) (by omega) hok hrun
      | none =>
          cases inp with
          | nil =>
              cases eof with
              | true =>
                  have hp : pnextE "anything" ⟨[], true, none, loc, exp, tr, w⟩ =
                      (Except.error ⟨loc, "read-after-EOF"⟩,
                       ⟨[], true, none, loc, exp ++ ["anything"], tr, w⟩) := rfl
                  rw [igLoop, if_neg (by omega : ¬ depth = 0)]
                  split
                  next e s' heq =>
                    rw [hp] at heq
                    simp only [Prod.mk.injEq] at heq
                    obtain ⟨he, rfl⟩ := heq
                    obtain rfl : e = ⟨loc, "read-after-EOF"⟩ := by
                      cases he
                      rfl
                    exact ⟨⟨[], true, none, loc, exp ++ ["anything"], tr, w⟩,
                      rfl, rfl, rfl, rfl⟩
                  next nn s' heq =>
                    rw [hp] at heq
                    simp at heq
              | false =>
                  have hp : pnextE "anything" ⟨[], false, none, loc, exp, tr, w⟩ =
                      (Except.ok Token.Eof, ⟨[], true, none, loc, exp ++ ["anything"], tr, w⟩) := rfl
                  rw [igLoop, if_neg (by omega : ¬ depth = 0)]
                  split
                  next e s' heq =>
                    rw [hp] at heq
                    simp at heq
                  next nn s' heq =>
                    rw [hp] at heq
                    simp only [Prod.mk.injEq] at heq
                    obtain ⟨he, rfl⟩ := heq
                    obtain rfl : Token.Eof = nn := by
                      cases he
                      rfl
                    exact ih _ depth (by simp [srcMeasure]) hd (by simp [allOkInput])
                      (by simp [streamToks, depthRun])
          | cons hd tl =>
              cases hd with
              | error er => simp [allOkInput] at hok
              | ok lt =>
                  have hp : pnextE "anything" ⟨Except.ok lt :: tl, eof, none, loc, exp, tr, w⟩ =
                      (Except.ok lt.token, ⟨tl, eof, none, lt.location, ["anything"], tr, w⟩) := rfl
                  rw [igLoop, if_neg (by omega : ¬ depth = 0)]
                  split
                  next e s' heq =>
                    rw [hp] at heq
                    simp at heq
                  next nn s' heq =>
                    rw [hp] at heq
                    simp only [Prod.mk.injEq] at heq
                    obtain ⟨he, rfl⟩ := heq
                    obtain rfl : lt.token = nn := by
                      cases he
                      rfl
                    have hstep : streamToks ⟨Except.ok lt :: tl, eof, none, loc, exp, tr, w⟩ =
                        lt.token :: streamToks ⟨tl, eof, none, lt.location, ["anything"], tr, w⟩ := rfl
                    rw [hstep] at hrun
                    simp only [depthRun] at hrun
                    simp only [allOkInput] at hok
                    by_cases hz : newDepth left right depth lt.token = 0
                    · rw [if_pos hz] at hrun
                      exact absurd hrun (by simp)
                    · rw [if_neg hz] at hrun
                      exact ih _ (newDepth left right depth lt.token)
                        (by simp [srcMeasure] at hm ⊢; omega) (by omega) hok hrun


/-- Token equality on two punctuation tokens is punctuation equality. -/
theorem token_beq_punct (p q : Punctuation) :
    (Token.Punct p == Token.Punct q) = (p == q) := rfl

/-- Claim C8: for every token stream in which the close delimiter matching
the group skipper's opening delimiter never brings the nesting depth back
to zero, the group skipper still terminates (it is defined by well-founded
recursion, so this theorem is total): it consumes every remaining token
including the single end-of-file sentinel (the final state has empty
input, empty buffer and the end-of-file flag set) and returns the token
source's fatal "read-after-EOF" error — never success. -/
theorem claim_C8 (left right : Punctuation) (s : PState) (rest : List Token)
    (hstream : streamToks s = Token.Punct left :: rest)
    (hok : allOkInput s.input = true)
    (hrun : depthRun left right 1 rest = true) :
    ∃ st : PState, ignore_group left right s =
        (Except.error (Fatal.err ⟨st.location, "read-after-EOF"⟩), st) ∧
      st.input = [] ∧ st.next = none ∧ st.eof = true := by
  rcases s with ⟨inp, eof, nx, loc, exp, tr, w⟩
  cases nx with
  | some t0 =>
      simp only [streamToks, List.cons_append, List.nil_append, List.cons.injEq] at hstream
      obtain ⟨rfl, hrest⟩ := hstream
      have hex : exact (Token.Punct left) ⟨inp, eof, some (Token.Punct left), loc, exp, tr, w⟩ =
          (Except.ok (some ()),
           ⟨inp, eof, none, loc, exp ++ [fmtDisplayToken (Token.Punct left)], tr, w⟩) := by
        simp [exact, pnext, pnextE, token_beq_punct, punct_beq_refl]
      simp only [ignore_group, hex]
      have hst : streamToks ⟨inp, eof, none, loc,
          exp ++ [fmtDisplayToken (Token.Punct left)], tr, w⟩ = rest := by
        simpa [streamToks] using hrest
      exact igLoop_unbalanced left right _ _ 1 le_rfl one_pos hok (by rw [hst]; exact hrun)
  | none =>
      cases inp with
      | nil => simp [streamToks] at hstream
      | cons hd tl =>
          cases hd with
          | error er => simp [allOkInput] at hok
          | ok lt =>
              simp only [streamToks, List.nil_append, List.map_cons, List.cons.injEq] at hstream
              obtain ⟨hlt, hrest⟩ := hstream
              have hex : exact (Token.Punct left)
                  ⟨Except.ok lt :: tl, eof, none, loc, exp, tr, w⟩ =
                  (Except.ok (some ()),
                   ⟨tl, eof, none, lt.location, [fmtDisplayToken (Token.Punct left)], tr, w⟩) := by
                simp [exact, pnext, pnextE, hlt, token_beq_punct, punct_beq_refl]
              simp only [ignore_group, hex]
              have hok' : allOkInput tl = true := by simpa [allOkInput] using hok
              have hst : streamToks ⟨tl, eof, none, lt.location,
                  [fmtDisplayToken (Token.Punct left)], tr, w⟩ = rest := by
                simpa [streamToks] using hrest
              exact igLoop_unbalanced left right _ _ 1 le_rfl one_pos hok'
                (by rw [hst]; exact hrun)

/-- Witness for claim C8: skipping `( (` with no closing parenthesis
drains the stream and fails with "read-after-EOF". -/
theorem claim_C8_witness :
    ∃ st : PState, ignore_group Punctuation.LParen Punctuation.RParen
        (stateOfToks [Token.Punct Punctuation.LParen, Token.Punct Punctuation.LParen]) =
        (Except.error (Fatal.err ⟨st.location, "read-after-EOF"⟩), st) ∧
      st.input = [] ∧ st.next = none ∧ st.eof = true :=
  claim_C8 Punctuation.LParen Punctuation.RParen
    (stateOfToks [Token.Punct Punctuation.LParen, Token.Punct Punctuation.LParen])
    [Token.Punct Punctuation.LParen] rfl rfl rfl

end DM
